import Mathlib

/-!
Verification of the gameBox repository (multiplayer arcade platform over a
replicated key-path store).  The definitions below are shallow embeddings of
the JavaScript sources:

* `js/omok.js` / `unnamed/part_001` — the five-in-a-row board codecs and the
  host-guarded round initialisation;
* `js/tetris.js` — the elimination / win-evaluation logic and the
  alive-flag replication;
* `js/main.js` (bundled `firebase-config.js`) — the `LocalDatabase`
  replicated-store mock (path-tree set/update/remove and listener fan-out);
* the Crazy-Arcade simulation engine is absent from the repository
  (README lists it as a planned phase); the definitions for it are modelled
  from the specification and marked as such.
-/

namespace GameBox

/-! ### Omok board representation (js/omok.js, unnamed/part_001)

A cell of the 15×15 board holds `0` (empty), `'black'` or `'white'`
(`STONE_COLOR` in the source).  The board is a `y`-major grid; we embed it as
a total function on naturals, of which only indices `< 15` are meaningful. -/

inductive Cell where
  | empty
  | black
  | white
deriving DecidableEq

/-- `CONFIG.BOARD_SIZE` in both omok sources. -/
def BOARD_SIZE : Nat := 15

/-- A 15×15 omok board, indexed `b y x` like `board[y][x]` in the source. -/
def Board : Type := Nat → Nat → Cell

/-- `flattenBoard` (js/omok.js lines 137-145): push `board[y][x]` row by row
into a flat array. -/
def flattenBoard (b : Board) : List Cell :=
  (List.range BOARD_SIZE).flatMap fun y =>
    (List.range BOARD_SIZE).map fun x => b y x

/-- `unflattenBoard` (js/omok.js lines 148-172): cell `(y,x)` is read from
`flat[y*15+x] || EMPTY`.  An out-of-range index gives `undefined`, hence
`EMPTY`; the stored value `0` is itself `EMPTY`, so `List.getD` with default
`Cell.empty` reproduces the `||` exactly. -/
def unflattenBoard (flat : List Cell) : Board :=
  fun y x => flat.getD (y * BOARD_SIZE + x) Cell.empty

/-- Write a single cell of a board, `board[y][x] = c`. -/
def boardSet (b : Board) (y x : Nat) (c : Cell) : Board :=
  fun y' x' => if y' = y ∧ x' = x then c else b y' x'

/-- `encodeBoard` (unnamed/part_001 lines 144-158): the sparse Firebase
object; only stones are stored, keyed by `"x_y"` (embedded here as the pair
`(x, y)`, which the string key round-trips to), with value `1` for black and
`2` for white. -/
def encodeBoard (b : Board) : List ((Nat × Nat) × Nat) :=
  (List.range BOARD_SIZE).flatMap fun y =>
    (List.range BOARD_SIZE).flatMap fun x =>
      match b y x with
      | Cell.black => [((x, y), 1)]
      | Cell.white => [((x, y), 2)]
      | Cell.empty => []

/-- One iteration of the `for (const key in sparse)` loop of `decodeBoard`. -/
def decodeStep (bd : Board) (e : (Nat × Nat) × Nat) : Board :=
  if e.2 = 1 then boardSet bd e.1.2 e.1.1 Cell.black
  else if e.2 = 2 then boardSet bd e.1.2 e.1.1 Cell.white
  else bd

/-- `decodeBoard` (unnamed/part_001 lines 161-186): start from the empty
board and restore every stored stone. -/
def decodeBoard (sparse : List ((Nat × Nat) × Nat)) : Board :=
  sparse.foldl decodeStep (fun _ _ => Cell.empty)

lemma boardSet_self (bd : Board) (y x : Nat) (c : Cell) : boardSet bd y x c y x = c := by
  simp [boardSet]

lemma boardSet_other {y' x' y x : Nat} (h : ¬(y = y' ∧ x = x')) (bd : Board) (c : Cell) :
    boardSet bd y' x' c y x = bd y x := by
  simp [boardSet, h]

lemma decodeStep_other {e : (Nat × Nat) × Nat} {x y : Nat} (h : e.1 ≠ (x, y)) (bd : Board) :
    decodeStep bd e y x = bd y x := by
  obtain ⟨⟨ex, ey⟩, v⟩ := e
  have h' : ¬(y = ey ∧ x = ex) := by
    rintro ⟨rfl, rfl⟩; exact h rfl
  by_cases h1 : v = 1
  · simp [decodeStep, h1, boardSet_other h']
  · by_cases h2 : v = 2 <;> simp [decodeStep, h1, h2, boardSet_other h']

lemma mem_encodeBoard {b : Board} {x y v : Nat} :
    ((x, y), v) ∈ encodeBoard b ↔
      x < BOARD_SIZE ∧ y < BOARD_SIZE ∧
        ((v = 1 ∧ b y x = Cell.black) ∨ (v = 2 ∧ b y x = Cell.white)) := by
  unfold encodeBoard
  simp only [List.mem_flatMap, List.mem_range]
  constructor
  · rintro ⟨y', hy', x', hx', hmem⟩
    rcases hcell : b y' x' with _ | _ | _ <;> rw [hcell] at hmem <;>
      simp only [List.mem_singleton, List.not_mem_nil, Prod.mk.injEq] at hmem
    · obtain ⟨⟨rfl, rfl⟩, rfl⟩ := hmem
      exact ⟨hx', hy', Or.inl ⟨rfl, hcell⟩⟩
    · obtain ⟨⟨rfl, rfl⟩, rfl⟩ := hmem
      exact ⟨hx', hy', Or.inr ⟨rfl, hcell⟩⟩
  · rintro ⟨hx, hy, ⟨rfl, hcell⟩ | ⟨rfl, hcell⟩⟩ <;>
      exact ⟨y, hy, x, hx, by rw [hcell]; simp⟩

/-- Once the target cell holds `c` and every remaining entry for that key
decodes to `c`, the `for..in` loop of `decodeBoard` keeps it at `c`. -/
lemma decode_foldl_keep {x y : Nat} {c : Cell} :
    ∀ {L : List ((Nat × Nat) × Nat)},
      (∀ e ∈ L, e.1 = (x, y) → (e.2 = 1 ∧ c = Cell.black) ∨ (e.2 = 2 ∧ c = Cell.white)) →
      ∀ {bd : Board}, bd y x = c → (L.foldl decodeStep bd) y x = c := by
  intro L
  induction L with
  | nil => intro _ bd hbd; exact hbd
  | cons e t ih =>
    intro hL bd hbd
    rw [List.foldl_cons]
    refine ih (fun e' he' => hL e' (List.mem_cons_of_mem _ he')) ?_
    by_cases hk : e.1 = (x, y)
    · obtain ⟨⟨ex, ey⟩, v⟩ := e
      obtain ⟨rfl, rfl⟩ : ex = x ∧ ey = y := by
        simpa [Prod.ext_iff] using hk
      rcases hL _ (List.mem_cons_self _ _) hk with ⟨h1, rfl⟩ | ⟨h2, rfl⟩
      · have hv : v = 1 := h1
        simp [decodeStep, hv, boardSet_self]
      · have hv : v = 2 := h2
        simp [decodeStep, hv, boardSet_self]
    · rw [decodeStep_other hk]; exact hbd

/-- If some entry for the key `(x,y)` occurs in the sparse object and every
entry for that key decodes to the cell `c`, then `decodeBoard` produces `c`
at `(y,x)` whatever the accumulator held before. -/
lemma decode_foldl_of_mem {x y v : Nat} {c : Cell}
    (hv : (v = 1 ∧ c = Cell.black) ∨ (v = 2 ∧ c = Cell.white)) :
    ∀ {L : List ((Nat × Nat) × Nat)}, ((x, y), v) ∈ L →
      (∀ e ∈ L, e.1 = (x, y) → (e.2 = 1 ∧ c = Cell.black) ∨ (e.2 = 2 ∧ c = Cell.white)) →
      ∀ (bd : Board), (L.foldl decodeStep bd) y x = c := by
  intro L
  induction L with
  | nil => intro h; cases h
  | cons e t ih =>
    intro hmem hL bd
    rw [List.foldl_cons]
    rcases List.mem_cons.mp hmem with he | hmem'
    · refine decode_foldl_keep (fun e' he' => hL e' (List.mem_cons_of_mem _ he')) ?_
      rcases hv with ⟨hv1, rfl⟩ | ⟨hv2, rfl⟩
      · simp [← he, decodeStep, hv1, boardSet_self]
      · simp [← he, decodeStep, hv2, boardSet_self]
    · exact ih hmem' (fun e' he' => hL e' (List.mem_cons_of_mem _ he')) _

/-- If no entry for the key `(x,y)` occurs, `decodeBoard` leaves the cell at
its initial value. -/
lemma decode_foldl_none {x y : Nat} :
    ∀ {L : List ((Nat × Nat) × Nat)}, (∀ v, ((x, y), v) ∉ L) →
      ∀ (bd : Board), (L.foldl decodeStep bd) y x = bd y x := by
  intro L
  induction L with
  | nil => intro _ bd; rfl
  | cons e t ih =>
    intro h bd
    rw [List.foldl_cons, ih (fun v hv => h v (List.mem_cons_of_mem _ hv))]
    refine decodeStep_other (fun hk => ?_) bd
    exact h e.2 (by rw [← hk]; exact List.mem_cons_self _ _)

/-- Reading back position `y*m + x` of a row-major flattening. -/
lemma flatMap_map_get {α : Type} (f : Nat → Nat → α) (m : Nat) :
    ∀ (n y x : Nat), y < n → x < m →
      ((List.range n).flatMap fun y => (List.range m).map (f y))[y * m + x]? = some (f y x) := by
  intro n
  induction n with
  | zero => intro y x hy _; omega
  | succ n ih =>
    intro y x hy hx
    rw [List.range_succ, List.flatMap_append]
    have hlen : ((List.range n).flatMap fun y => (List.range m).map (f y)).length = n * m := by
      rw [List.length_flatMap]
      simp only [Function.comp_def, List.length_map, List.length_range]
      rw [List.map_const', List.length_range, List.sum_replicate, smul_eq_mul]
    rcases Nat.lt_or_ge y n with hyn | hyn
    · rw [List.getElem?_append_left]
      · exact ih y x hyn hx
      · rw [hlen]
        calc y * m + x < y * m + m := Nat.add_lt_add_left hx _
          _ = (y + 1) * m := by ring
          _ ≤ n * m := Nat.mul_le_mul_right m hyn
    · have hy' : y = n := by omega
      subst hy'
      rw [List.getElem?_append_right (by rw [hlen]; exact Nat.le_add_right _ _), hlen,
        Nat.add_sub_cancel_left]
      simp [hx]

/-- C2: for every board over the three legal cell values on the fixed 15×15
grid, both replicated-store codecs are lossless: `decodeBoard ∘ encodeBoard`
(sparse-object representation, unnamed/part_001) and
`unflattenBoard ∘ flattenBoard` (flat-array representation, js/omok.js)
restore every cell of the original board. -/
theorem encodeBoard_decodeBoard_roundtrip (b : Board) (x y : Nat)
    (hx : x < BOARD_SIZE) (hy : y < BOARD_SIZE) :
    decodeBoard (encodeBoard b) y x = b y x ∧
      unflattenBoard (flattenBoard b) y x = b y x := by
  constructor
  · unfold decodeBoard
    rcases hcell : b y x with _ | _ | _
    · rw [decode_foldl_none]
      intro v hv
      rcases (mem_encodeBoard.mp hv).2.2 with ⟨_, hb⟩ | ⟨_, hb⟩ <;>
        rw [hcell] at hb <;> cases hb
    · refine decode_foldl_of_mem (Or.inl ⟨rfl, rfl⟩)
        (mem_encodeBoard.mpr ⟨hx, hy, Or.inl ⟨rfl, hcell⟩⟩) ?_ _
      intro e he hk
      obtain ⟨⟨ex, ey⟩, v⟩ := e
      obtain ⟨rfl, rfl⟩ : ex = x ∧ ey = y := by simpa [Prod.ext_iff] using hk
      rcases (mem_encodeBoard.mp he).2.2 with ⟨hv, hb⟩ | ⟨hv, hb⟩
      · exact Or.inl ⟨hv, rfl⟩
      · rw [hcell] at hb; cases hb
    · refine decode_foldl_of_mem (Or.inr ⟨rfl, rfl⟩)
        (mem_encodeBoard.mpr ⟨hx, hy, Or.inr ⟨rfl, hcell⟩⟩) ?_ _
      intro e he hk
      obtain ⟨⟨ex, ey⟩, v⟩ := e
      obtain ⟨rfl, rfl⟩ : ex = x ∧ ey = y := by simpa [Prod.ext_iff] using hk
      rcases (mem_encodeBoard.mp he).2.2 with ⟨hv, hb⟩ | ⟨hv, hb⟩
      · rw [hcell] at hb; cases hb
      · exact Or.inr ⟨hv, rfl⟩
  · unfold unflattenBoard flattenBoard
    rw [List.getD_eq_getElem?_getD, flatMap_map_get b BOARD_SIZE BOARD_SIZE y x hy hx]
    rfl

/-- A sample board used to exercise the round-trip theorem. -/
def sampleBoard : Board := fun y x =>
  if y = 7 ∧ x = 7 then Cell.black
  else if y = 0 ∧ x = 1 then Cell.white
  else Cell.empty

theorem encodeBoard_decodeBoard_roundtrip_witness :
    (7 < BOARD_SIZE ∧ 7 < BOARD_SIZE) ∧
      (decodeBoard (encodeBoard sampleBoard) 7 7 = sampleBoard 7 7 ∧
        unflattenBoard (flattenBoard sampleBoard) 7 7 = sampleBoard 7 7) :=
  ⟨⟨by decide, by decide⟩,
    encodeBoard_decodeBoard_roundtrip sampleBoard 7 7 (by decide) (by decide)⟩

/-! ### The bundled local replicated store (js/main.js, class LocalDatabase)

Paths are the raw strings the JS code passes around, embedded as character
lists; `pathKeys` is `path.split('/').filter(k => k)`.  Stored values are
JSON-like trees; objects are association lists of fields (JS objects have
unique keys, which every construction below preserves, and iteration order
never matters for the operations modelled). -/

/-- A JavaScript value as stored in the local database tree. -/
inductive JVal where
  | str (s : String)
  | num (n : Int)
  | jbool (b : Bool)
  | jnull
  | obj (fields : List (List Char × JVal))

/-- JS truthiness of a stored value: `0`, `''`, `false` and `null` are
falsy; every object (`{}` included) is truthy. -/
def truthy : JVal → Bool
  | JVal.str s => !(s == "")
  | JVal.num n => !(n == 0)
  | JVal.jbool b => b
  | JVal.jnull => false
  | JVal.obj _ => true

/-- A path string, as the character list of the raw JS string. -/
abbrev Path : Type := List Char

/-- A single field name / path segment. -/
abbrev Key : Type := List Char

/-- `path.split('/')`: second argument is the (reversed) segment being read. -/
def splitOnSlash : List Char → List Char → List (List Char)
  | [], acc => [acc.reverse]
  | c :: rest, acc =>
    if c = '/' then acc.reverse :: splitOnSlash rest [] else splitOnSlash rest (c :: acc)

/-- `path.split('/').filter(k => k)`: the key segments of a path (empty
segments are falsy strings, dropped by the filter). -/
def pathKeys (p : Path) : List Key :=
  (splitOnSlash p []).filter (fun seg => !seg.isEmpty)

/-- `fields[k]` — JS object property read (objects have unique keys, the
first match is the match). -/
def getField : List (Key × JVal) → Key → Option JVal
  | [], _ => none
  | (k, v) :: rest, k' => if k = k' then some v else getField rest k'

/-- `fields[k] = v` — JS object property write: replace the existing key or
append a fresh one. -/
def putField : List (Key × JVal) → Key → JVal → List (Key × JVal)
  | [], k, v => [(k, v)]
  | (k', v') :: rest, k, v =>
    if k' = k then (k, v) :: rest else (k', v') :: putField rest k v

/-- `delete fields[k]`. -/
def delField (fs : List (Key × JVal)) (k : Key) : List (Key × JVal) :=
  fs.filter (fun e => decide (e.1 ≠ k))

/-- `LocalDatabase.get` walk (js/main.js lines 190-198): before each index
step the JS checks `!current || typeof current !== 'object'`; `null` and
every primitive fail it, so only object nodes are traversed. -/
def dbGet : JVal → List Key → Option JVal
  | v, [] => some v
  | JVal.obj fs, k :: rest =>
    match getField fs k with
    | some w => dbGet w rest
    | none => none
  | _, _ :: _ => none

/-- `LocalDatabase.set` walk (js/main.js lines 200-216): every intermediate
segment whose current value is falsy or not an object is replaced by a fresh
`{}`; the final segment is assigned.  The JS indexes with `undefined` when
the key list is empty; no operation modelled here is called that way, and we
leave the data unchanged in that case. -/
def setKeys : List (Key × JVal) → List Key → JVal → List (Key × JVal)
  | fs, [], _ => fs
  | fs, [k], v => putField fs k v
  | fs, k :: k' :: rest, v =>
    let child : List (Key × JVal) :=
      match getField fs k with
      | some (JVal.obj cfs) => cfs
      | _ => []
    putField fs k (JVal.obj (setKeys child (k' :: rest) v))

/-- `LocalDatabase.remove` walk (js/main.js lines 224-238): the loop exits
early — without saving or notifying — as soon as an intermediate segment is
falsy or absent (`if (!current[key]) return;`); `none` records that early
return.  A truthy primitive is traversed without complaint: the final
`delete` on it is a no-op on a temporary wrapper, but save and notify still
run (`some fs` with the data unchanged); with two or more segments left the
next `!current[key]` check fails and the walk exits early. -/
def removeKeys : List (Key × JVal) → List Key → Option (List (Key × JVal))
  | fs, [] => some fs
  | fs, [k] => some (delField fs k)
  | fs, k :: k' :: rest =>
    match getField fs k with
    | none => none
    | some v =>
      if truthy v then
        match v with
        | JVal.obj cfs =>
          match removeKeys cfs (k' :: rest) with
          | some cfs' => some (putField fs k (JVal.obj cfs'))
          | none => none
        | _ =>
          match rest with
          | [] => some fs
          | _ :: _ => none
      else none

/-- The local database: the JSON tree plus the subscription table
(`this.listeners`, flattened to `(path, callback id)` pairs). -/
structure DB where
  data : List (Key × JVal)
  listeners : List (Path × Nat)

/-- `LocalDatabase.notifyListeners` (js/main.js lines 253-261): fan out to
every listener whose path is related to the written path by
`path.startsWith(listenerPath) || listenerPath.startsWith(path)`, delivering
`this.get(listenerPath)` evaluated against the post-write data. -/
def notifyListeners (listeners : List (Path × Nat)) (data : List (Key × JVal)) (p : Path) :
    List (Nat × Option JVal) :=
  listeners.filterMap fun l =>
    if l.1.isPrefixOf p || p.isPrefixOf l.1 then
      some (l.2, dbGet (JVal.obj data) (pathKeys l.1))
    else none

/-- `LocalDatabase.get` on a full path string. -/
def DB.get (db : DB) (p : Path) : Option JVal :=
  dbGet (JVal.obj db.data) (pathKeys p)

/-- `LocalDatabase.set`: write, save, then notify. -/
def DB.set (db : DB) (p : Path) (v : JVal) : DB × List (Nat × Option JVal) :=
  let d := setKeys db.data (pathKeys p) v
  (⟨d, db.listeners⟩, notifyListeners db.listeners d p)

/-- `{ ...current }` — the fields contributed by spreading a stored value
into an object literal.  Spreading a primitive contributes no slash-path
addressable fields (a string contributes numeric index keys, which the
claims' object-valued hypotheses exclude). -/
def spreadFields : JVal → List (Key × JVal)
  | JVal.obj fs => fs
  | _ => []

/-- `{ ...fs, ...u }` — fields of `fs` first, each field of `u` then written
over them (overriding an existing key in place, otherwise appended). -/
def mergeFields (fs u : List (Key × JVal)) : List (Key × JVal) :=
  u.foldl (fun acc e => putField acc e.1 e.2) fs

/-- `LocalDatabase.update` (js/main.js lines 218-222):
`const current = this.get(path) || {};`
`this.set(path, { ...current, ...updates });` -/
def DB.update (db : DB) (p : Path) (u : List (Key × JVal)) : DB × List (Nat × Option JVal) :=
  let current : JVal :=
    match db.get p with
    | some w => if truthy w then w else JVal.obj []
    | none => JVal.obj []
  DB.set db p (JVal.obj (mergeFields (spreadFields current) u))

/-- `LocalDatabase.remove`: on an early loop exit nothing is saved and no
listener is notified. -/
def DB.remove (db : DB) (p : Path) : DB × List (Nat × Option JVal) :=
  match removeKeys db.data (pathKeys p) with
  | none => (db, [])
  | some d => (⟨d, db.listeners⟩, notifyListeners db.listeners d p)

/-! ### Host-guarded round initialisation (js/tetris.js 149-187,
unnamed/part_001 192-219)

Both room listeners recompute `isHost = roomData.hostId === playerId` from
each snapshot and call the one-time initialisation write only under
`isHost && !roomData.game` (the omok variant additionally requires the
client-local `isInitializing` re-entrancy flag to be clear). -/

/-- The part of a room snapshot read by the initialisation guard. -/
structure RoomSnapshot where
  hostId : String
  game : Option JVal

/-- `!roomData.game`: the game subtree is absent or falsy.  A present round
snapshot is a non-empty object, hence truthy. -/
def gameFalsy : Option JVal → Bool
  | none => true
  | some v => !truthy v

/-- The tetris room listener (js/tetris.js lines 151-187): `initGameState()`
is invoked iff the snapshot exists, `roomData.hostId === gameState.playerId`
and `!roomData.game`. -/
def tetrisInitTriggered (room : Option RoomSnapshot) (playerId : String) : Bool :=
  match room with
  | none => false
  | some r => (r.hostId == playerId) && gameFalsy r.game

/-- The omok room listener (unnamed/part_001 lines 198-219):
`initializeGame()` is invoked iff additionally `!isInitializing`. -/
def omokInitTriggered (room : Option RoomSnapshot) (playerId : String)
    (isInitializing : Bool) : Bool :=
  match room with
  | none => false
  | some r => ((r.hostId == playerId) && gameFalsy r.game) && !isInitializing

/-- C1: in both games the one-time initialisation write fires only on the
client whose player id equals the room's recorded host id and only while the
shared game subtree is absent (falsy); a non-host client never triggers it
and no client triggers it while a round snapshot (a truthy value) exists, so
a round in progress is never re-initialised after host loss. -/
theorem initGame_only_host_and_absent (r : RoomSnapshot) (pid : String) (flag : Bool) :
    (tetrisInitTriggered (some r) pid = true →
      r.hostId = pid ∧ ∀ v, r.game = some v → truthy v = false) ∧
    (omokInitTriggered (some r) pid flag = true →
      r.hostId = pid ∧ ∀ v, r.game = some v → truthy v = false) ∧
    tetrisInitTriggered none pid = false ∧
    omokInitTriggered none pid flag = false := by
  refine ⟨?_, ?_, rfl, rfl⟩ <;> intro h
  · rw [tetrisInitTriggered, Bool.and_eq_true, beq_iff_eq] at h
    refine ⟨h.1, fun v hv => ?_⟩
    have := h.2
    rw [hv] at this
    simpa [gameFalsy] using this
  · rw [omokInitTriggered, Bool.and_eq_true, Bool.and_eq_true, beq_iff_eq] at h
    refine ⟨h.1.1, fun v hv => ?_⟩
    have := h.1.2
    rw [hv] at this
    simpa [gameFalsy] using this

/-- Room snapshot used to exercise the guard theorem. -/
def roomW : RoomSnapshot := ⟨"h", none⟩

theorem initGame_only_host_and_absent_witness :
    tetrisInitTriggered (some roomW) "h" = true ∧
      (roomW.hostId = "h" ∧ ∀ v, roomW.game = some v → truthy v = false) :=
  ⟨by decide, (initGame_only_host_and_absent roomW "h" false).1 (by decide)⟩

/-! ### Listener fan-out coverage (C6) -/

/-- `lp` is the written path itself, or a path-string ancestor of it
(`p = lp + "/" + suffix`). -/
def selfOrAncestor (lp p : Path) : Prop :=
  lp = p ∨ ∃ s, p = lp ++ '/' :: s

lemma selfOrAncestor_isPrefixOf {lp p : Path} (h : selfOrAncestor lp p) :
    lp.isPrefixOf p = true := by
  rw [List.isPrefixOf_iff_prefix]
  rcases h with rfl | ⟨s, rfl⟩
  · exact List.prefix_refl _
  · exact ⟨'/' :: s, rfl⟩

lemma mem_notifyListeners {listeners : List (Path × Nat)} {lp p : Path} {id : Nat}
    (hmem : (lp, id) ∈ listeners) (hpre : lp.isPrefixOf p = true)
    (data : List (Key × JVal)) :
    (id, dbGet (JVal.obj data) (pathKeys lp)) ∈ notifyListeners listeners data p := by
  unfold notifyListeners
  exact List.mem_filterMap.mpr ⟨(lp, id), hmem, by simp [hpre]⟩

/-- C6 amended: for every `set` and every `update` at a path `p`, the
fan-out invokes the callback of each currently subscribed listener whose
path is `p` itself or an ancestor of `p`, delivering the post-write value at
the listener's own path; a `remove` does the same provided its walk reaches
the final segment (`removeKeys` succeeds).  (As stated the claim also
covered removes whose parent chain is missing; those exit before the
fan-out, see the counterexample.) -/
theorem notifyListeners_covers_ancestors (db : DB) (p lp : Path) (id : Nat) (v : JVal)
    (u : List (Key × JVal)) (hmem : (lp, id) ∈ db.listeners) (hanc : selfOrAncestor lp p) :
    ((id, dbGet (JVal.obj (DB.set db p v).1.data) (pathKeys lp)) ∈ (DB.set db p v).2) ∧
    ((id, dbGet (JVal.obj (DB.update db p u).1.data) (pathKeys lp)) ∈ (DB.update db p u).2) ∧
    (∀ d, removeKeys db.data (pathKeys p) = some d →
      (id, dbGet (JVal.obj d) (pathKeys lp)) ∈ (DB.remove db p).2) := by
  have hpre := selfOrAncestor_isPrefixOf hanc
  refine ⟨?_, ?_, ?_⟩
  · exact mem_notifyListeners hmem hpre _
  · exact mem_notifyListeners hmem hpre _
  · intro d hd
    unfold DB.remove
    rw [hd]
    exact mem_notifyListeners hmem hpre d

/-- Database used to exercise the fan-out theorems: one field `a` holding
`5`, a listener subscribed at the root-level path `a`. -/
def db6 : DB := ⟨[(['a'], JVal.num 5)], [(['a'], 7)]⟩

theorem notifyListeners_covers_ancestors_witness :
    ((['a'], 7) ∈ db6.listeners ∧ selfOrAncestor ['a'] (['a', '/', 'b'] : Path)) ∧
      ((7, dbGet (JVal.obj (DB.set db6 ['a', '/', 'b'] (JVal.num 1)).1.data)
          (pathKeys ['a'])) ∈ (DB.set db6 ['a', '/', 'b'] (JVal.num 1)).2) :=
  ⟨⟨by decide, Or.inr ⟨['b'], rfl⟩⟩,
    (notifyListeners_covers_ancestors db6 ['a', '/', 'b'] ['a'] 7 (JVal.num 1) []
      (by decide) (Or.inr ⟨['b'], rfl⟩)).1⟩

/-- Database for the C6 counterexample: empty tree, one listener subscribed
at exactly the removed path. -/
def db6cex : DB := ⟨[], [(['a', '/', 'b'], 0)]⟩

/-- C6 counterexample: `remove("a/b")` on an empty tree exits its walk at
the missing intermediate `a` before the fan-out runs, so the listener
subscribed at `a/b` — the written path itself — receives no callback,
contradicting the claim that no such subscriber is ever silently skipped. -/
theorem notifyListeners_remove_skips_counterexample :
    ((['a', '/', 'b'], 0) ∈ db6cex.listeners) ∧
      (DB.remove db6cex ['a', '/', 'b']).2 = [] :=
  ⟨by decide, rfl⟩

/-! ### Field-patch semantics of `update` (C10) -/

lemma getField_putField_self (k : Key) (v : JVal) :
    ∀ fs : List (Key × JVal), getField (putField fs k v) k = some v := by
  intro fs
  induction fs with
  | nil => simp [putField, getField]
  | cons e rest ih =>
    obtain ⟨k'', w⟩ := e
    by_cases hk : k'' = k
    · simp [putField, hk, getField]
    · simp [putField, hk, getField, ih]

lemma getField_putField_other {k k' : Key} (hne : k' ≠ k) (v : JVal) :
    ∀ fs : List (Key × JVal), getField (putField fs k v) k' = getField fs k' := by
  have hkk : ¬(k = k') := fun h => hne h.symm
  intro fs
  induction fs with
  | nil => simp [putField, getField, hkk]
  | cons e rest ih =>
    obtain ⟨k'', w⟩ := e
    by_cases hk : k'' = k
    · subst hk
      simp [putField, getField, hkk]
    · simp [putField, hk, getField, ih]

lemma getField_mergeFields_not_mem {n : Key} :
    ∀ u : List (Key × JVal), (∀ e ∈ u, e.1 ≠ n) →
      ∀ fs : List (Key × JVal), getField (mergeFields fs u) n = getField fs n := by
  intro u
  induction u with
  | nil => intro _ fs; rfl
  | cons e rest ih =>
    intro h fs
    have hrest : ∀ e' ∈ rest, e'.1 ≠ n := fun e' he' => h e' (List.mem_cons_of_mem _ he')
    have hne : n ≠ e.1 := fun hn => h e (List.mem_cons_self _ _) hn.symm
    show getField (mergeFields (putField fs e.1 e.2) rest) n = getField fs n
    rw [ih hrest, getField_putField_other hne]

lemma getField_mergeFields_mem {n : Key} {v : JVal} :
    ∀ u : List (Key × JVal), (u.map Prod.fst).Nodup → (n, v) ∈ u →
      ∀ fs : List (Key × JVal), getField (mergeFields fs u) n = some v := by
  intro u
  induction u with
  | nil => intro _ h; cases h
  | cons e rest ih =>
    intro hnd hmem fs
    rw [List.map_cons, List.nodup_cons] at hnd
    rcases List.mem_cons.mp hmem with he | hmem'
    · have hn' : e.1 = n := by rw [← he]
      have hnot : ∀ e' ∈ rest, e'.1 ≠ n := by
        intro e' he' hn
        apply hnd.1
        rw [hn']
        exact hn ▸ List.mem_map_of_mem Prod.fst he'
      show getField (mergeFields (putField fs e.1 e.2) rest) n = some v
      rw [getField_mergeFields_not_mem rest hnot, ← he, getField_putField_self]
    · exact ih hnd.2 hmem' _

/-- A freshly built chain `setKeys [] ks v` answers `none` on every key list
that diverges from `ks`. -/
lemma dbGet_chain_none :
    ∀ (t t' : List Key) (v : JVal), ¬(t <+: t') → ¬(t' <+: t) →
      dbGet (JVal.obj (setKeys [] t v)) t' = none := by
  intro t
  induction t with
  | nil => intro t' v h1 _; exact absurd (List.nil_prefix) h1
  | cons k tail ih =>
    intro t' v h1 h2
    cases t' with
    | nil => exact absurd (List.nil_prefix) h2
    | cons k' t'' =>
      cases tail with
      | nil =>
        by_cases hk : k' = k
        · subst hk
          exact absurd (List.cons_prefix_cons.mpr ⟨rfl, List.nil_prefix⟩) h1
        · have hk' : ¬(k = k') := fun h => hk h.symm
          simp [setKeys, putField, dbGet, getField, hk']
      | cons k2 rest =>
        by_cases hk : k' = k
        · subst hk
          have ht1 : ¬((k2 :: rest) <+: t'') :=
            fun hp => h1 (List.cons_prefix_cons.mpr ⟨rfl, hp⟩)
          have ht2 : ¬(t'' <+: (k2 :: rest)) :=
            fun hp => h2 (List.cons_prefix_cons.mpr ⟨rfl, hp⟩)
          simpa [setKeys, putField, dbGet, getField] using ih t'' v ht1 ht2
        · have hk' : ¬(k = k') := fun h => hk h.symm
          simp [setKeys, putField, dbGet, getField, hk']

/-- Reading back the written path after a `set` walk. -/
lemma dbGet_setKeys_self :
    ∀ (ks : List Key) (fs : List (Key × JVal)) (v : JVal), ks ≠ [] →
      dbGet (JVal.obj (setKeys fs ks v)) ks = some v := by
  intro ks
  induction ks with
  | nil => intro _ _ h; exact absurd rfl h
  | cons k tail ih =>
    intro fs v _
    cases tail with
    | nil => simp [setKeys, dbGet, getField_putField_self]
    | cons k2 rest =>
      simp only [setKeys, dbGet, getField_putField_self]
      exact ih _ v (by simp)

/-- A `set` walk leaves every prefix-unrelated path unchanged. -/
lemma dbGet_setKeys_other :
    ∀ (ks ks' : List Key) (fs : List (Key × JVal)) (v : JVal),
      ¬(ks <+: ks') → ¬(ks' <+: ks) →
      dbGet (JVal.obj (setKeys fs ks v)) ks' = dbGet (JVal.obj fs) ks' := by
  intro ks
  induction ks with
  | nil => intro ks' fs v h1 _; exact absurd (List.nil_prefix) h1
  | cons k tail ih =>
    intro ks' fs v h1 h2
    cases ks' with
    | nil => exact absurd (List.nil_prefix) h2
    | cons k' t' =>
      cases tail with
      | nil =>
        by_cases hk : k' = k
        · subst hk
          exact absurd (List.cons_prefix_cons.mpr ⟨rfl, List.nil_prefix⟩) h1
        · have hk' : ¬(k = k') := fun h => hk h.symm
          simp [setKeys, dbGet, getField_putField_other (fun h => hk' h.symm)]
      | cons k2 rest =>
        by_cases hk : k' = k
        · rw [hk]
          have ht1 : ¬((k2 :: rest) <+: t') :=
            fun hp => h1 (List.cons_prefix_cons.mpr ⟨hk.symm, hp⟩)
          have ht2 : ¬(t' <+: (k2 :: rest)) :=
            fun hp => h2 (List.cons_prefix_cons.mpr ⟨hk, hp⟩)
          have ht' : t' ≠ [] := by
            rintro rfl
            exact h2 (List.cons_prefix_cons.mpr ⟨hk, List.nil_prefix⟩)
          simp only [setKeys, dbGet, getField_putField_self]
          cases hgf : getField fs k with
          | none =>
            simpa [dbGet] using dbGet_chain_none _ _ v ht1 ht2
          | some w =>
            cases w with
            | obj cfs => simpa [dbGet] using ih t' cfs v ht1 ht2
            | str s =>
              cases t' with
              | nil => exact absurd rfl ht'
              | cons a b => simpa [dbGet] using dbGet_chain_none _ _ v ht1 ht2
            | num n =>
              cases t' with
              | nil => exact absurd rfl ht'
              | cons a b => simpa [dbGet] using dbGet_chain_none _ _ v ht1 ht2
            | jbool b0 =>
              cases t' with
              | nil => exact absurd rfl ht'
              | cons a b => simpa [dbGet] using dbGet_chain_none _ _ v ht1 ht2
            | jnull =>
              cases t' with
              | nil => exact absurd rfl ht'
              | cons a b => simpa [dbGet] using dbGet_chain_none _ _ v ht1 ht2
        · have hgoal : getField (setKeys fs (k :: k2 :: rest) v) k' = getField fs k' := by
            show getField (putField fs k (JVal.obj (setKeys _ (k2 :: rest) v))) k'
              = getField fs k'
            exact getField_putField_other hk _ _
          simp only [dbGet, hgoal]

/-- C10: when the value stored at path `p` is an object, `update(p, u)`
replaces it by the shallow merge `{ ...stored, ...u }`: every field of the
stored object whose name is not a key of `u` keeps its value, every field
named in `u` takes the value from `u`, and every path unrelated to `p` by
containment reads exactly as before. -/
theorem update_shallow_merge (db : DB) (p : Path) (u : List (Key × JVal))
    (fs : List (Key × JVal)) (hobj : DB.get db p = some (JVal.obj fs))
    (hne : pathKeys p ≠ []) (hnd : (u.map Prod.fst).Nodup) :
    DB.get (DB.update db p u).1 p = some (JVal.obj (mergeFields fs u)) ∧
    (∀ n, (∀ e ∈ u, e.1 ≠ n) → getField (mergeFields fs u) n = getField fs n) ∧
    (∀ n v, (n, v) ∈ u → getField (mergeFields fs u) n = some v) ∧
    (∀ q : Path, ¬(pathKeys p <+: pathKeys q) → ¬(pathKeys q <+: pathKeys p) →
      DB.get (DB.update db p u).1 q = DB.get db q) := by
  have hupd : (DB.update db p u).1.data
      = setKeys db.data (pathKeys p) (JVal.obj (mergeFields fs u)) := by
    simp [DB.update, DB.set, hobj, truthy, spreadFields]
  refine ⟨?_, ?_, ?_, ?_⟩
  · show dbGet (JVal.obj (DB.update db p u).1.data) (pathKeys p) = _
    rw [hupd]
    exact dbGet_setKeys_self _ _ _ hne
  · intro n hn
    exact getField_mergeFields_not_mem u hn fs
  · intro n v hv
    exact getField_mergeFields_mem u hnd hv fs
  · intro q hq1 hq2
    show dbGet (JVal.obj (DB.update db p u).1.data) (pathKeys q) = _
    rw [hupd]
    exact dbGet_setKeys_other _ _ _ _ hq1 hq2

/-- Database used to exercise the `update` theorem: one top-level object
`r` with fields `a = 1`, `b = 2`. -/
def db10 : DB :=
  ⟨[(['r'], JVal.obj [(['a'], JVal.num 1), (['b'], JVal.num 2)])], []⟩

/-- Field list stored at `r` in `db10`. -/
def fs10 : List (Key × JVal) := [(['a'], JVal.num 1), (['b'], JVal.num 2)]

theorem update_shallow_merge_witness :
    (DB.get db10 ['r'] = some (JVal.obj fs10) ∧ pathKeys ['r'] ≠ []) ∧
      (DB.get (DB.update db10 ['r'] [(['b'], JVal.num 3)]).1 ['r']
          = some (JVal.obj (mergeFields fs10 [(['b'], JVal.num 3)])) ∧
        (∀ n, (∀ e ∈ [(['b'], JVal.num 3)], e.1 ≠ n) →
          getField (mergeFields fs10 [(['b'], JVal.num 3)]) n = getField fs10 n) ∧
        (∀ n v, (n, v) ∈ [(['b'], JVal.num 3)] →
          getField (mergeFields fs10 [(['b'], JVal.num 3)]) n = some v) ∧
        (∀ q : Path, ¬(pathKeys ['r'] <+: pathKeys q) → ¬(pathKeys q <+: pathKeys ['r']) →
          DB.get (DB.update db10 ['r'] [(['b'], JVal.num 3)]).1 q = DB.get db10 q)) :=
  ⟨⟨rfl, by decide⟩,
    update_shallow_merge db10 ['r'] [(['b'], JVal.num 3)] fs10 rfl (by decide) (by decide)⟩

/-! ### Tetris elimination and win evaluation (js/tetris.js 655-716) -/

/-- The per-player fields of `gameState.players[..]` that `playerDied` reads
or writes (board/score/lines are untouched by it). -/
structure TPlayer where
  id : String
  alive : Bool
  rank : Nat
deriving DecidableEq

/-- The part of the tetris client state that `playerDied` touches. -/
structure TetrisState where
  players : List TPlayer
  playerId : String
  isHost : Bool

/-- Store writes issued by `playerDied` / `finishGame`:
`deathUpdate` is `updateDB(playerRef, {alive:false, rank})`,
`winnerUpdate` is `updateDB(winnerRef, {rank: 1})`,
`finishUpdate` is `updateDB(gameRef, {gameFinished:true, rankings})`. -/
inductive TWrite where
  | deathUpdate (id : String) (rank : Nat)
  | winnerUpdate (id : String)
  | finishUpdate (rankings : List (String × Nat))
deriving DecidableEq

/-- `Object.values(gameState.players).filter(p => p.alive)`. -/
def alivePlayers (ps : List TPlayer) : List TPlayer :=
  ps.filter fun p => p.alive

/-- Insertion step of the ascending-by-rank sort. -/
def insertByRank (e : String × Nat) : List (String × Nat) → List (String × Nat)
  | [] => [e]
  | e' :: rest => if e.2 ≤ e'.2 then e :: e' :: rest else e' :: insertByRank e rest

/-- `rankings` as computed by `finishGame` (js/tetris.js 701-716): the
players sorted ascending by rank (a stable insertion sort stands in for the
stable JS `sort((a,b) => a.rank - b.rank)`). -/
def rankingsOf (ps : List TPlayer) : List (String × Nat) :=
  (ps.map fun p => (p.id, p.rank)).foldr insertByRank []

/-- The local mirror after `playerDied` marks the local player dead
(js/tetris.js 660-667): `rank` is the number of players alive before the
death, the local player's entry gets `alive := false` and that rank. -/
def applyDeath (st : TetrisState) : List TPlayer :=
  st.players.map fun p =>
    if p.id = st.playerId then
      { p with alive := false, rank := (alivePlayers st.players).length }
    else p

/-- `playerDied` (js/tetris.js 655-696), together with the `finishGame` call
it makes (701-716) when the client is the host and at most one player is
still alive afterwards.  Returns the updated local mirror and the store
writes performed, in order.  (`gameState.gameOver`, `currentPiece` and the
on-screen notification are local UI state, not modelled.) -/
def playerDied (st : TetrisState) : TetrisState × List TWrite :=
  let rank := (alivePlayers st.players).length
  let players1 := applyDeath st
  let aliveAfter := alivePlayers players1
  if aliveAfter.length ≤ 1 ∧ st.isHost = true then
    match aliveAfter with
    | [winner] =>
      let players2 := players1.map fun p =>
        if p.id = winner.id then { p with rank := 1 } else p
      (⟨players2, st.playerId, st.isHost⟩,
        [TWrite.deathUpdate st.playerId rank, TWrite.winnerUpdate winner.id,
          TWrite.finishUpdate (rankingsOf players2)])
    | _ =>
      (⟨players1, st.playerId, st.isHost⟩,
        [TWrite.deathUpdate st.playerId rank, TWrite.finishUpdate (rankingsOf players1)])
  else
    (⟨players1, st.playerId, st.isHost⟩, [TWrite.deathUpdate st.playerId rank])

/-- If the host's death leaves exactly one player alive, `playerDied`
writes the death update, the winner's rank-1 update, and the game-finished
write, in that order. -/
lemma playerDied_writes_one {st : TetrisState} {w : TPlayer} (hhost : st.isHost = true)
    (hone : alivePlayers (applyDeath st) = [w]) :
    (playerDied st).2 =
      [TWrite.deathUpdate st.playerId (alivePlayers st.players).length,
        TWrite.winnerUpdate w.id,
        TWrite.finishUpdate (rankingsOf ((applyDeath st).map fun p =>
          if p.id = w.id then { p with rank := 1 } else p))] := by
  unfold playerDied
  dsimp only
  rw [hone]
  simp [hhost]

/-- If the host's death leaves nobody alive, `playerDied` writes the death
update and the game-finished write, with no winner update. -/
lemma playerDied_writes_zero {st : TetrisState} (hhost : st.isHost = true)
    (hzero : alivePlayers (applyDeath st) = []) :
    (playerDied st).2 =
      [TWrite.deathUpdate st.playerId (alivePlayers st.players).length,
        TWrite.finishUpdate (rankingsOf (applyDeath st))] := by
  unfold playerDied
  dsimp only
  rw [hzero]
  simp [hhost]

/-- On a non-host client, or while two or more players remain alive, the
death update is the only write `playerDied` performs. -/
lemma playerDied_writes_skip {st : TetrisState}
    (h : ¬((alivePlayers (applyDeath st)).length ≤ 1 ∧ st.isHost = true)) :
    (playerDied st).2 =
      [TWrite.deathUpdate st.playerId (alivePlayers st.players).length] := by
  unfold playerDied
  dsimp only
  simp [h]

/-- Local state for the C3 counterexample: two alive players, the local,
dying client `A` is not the host. -/
def stA : TetrisState := ⟨[⟨"A", true, 0⟩, ⟨"B", true, 0⟩], "A", false⟩

/-- C3 counterexample: when the non-host client `A` of `stA` processes its
own elimination, exactly one player (`B`) remains alive, yet the only store
write is `A`'s own death update — no winner rank is assigned and no
game-finished write occurs, contradicting the claim that a single survivor
always triggers finalisation. -/
theorem playerDied_finalize_counterexample :
    (alivePlayers (applyDeath stA)).length = 1 ∧
      (playerDied stA).2 = [TWrite.deathUpdate "A" 2] := by decide

/-- C3 amended: the recorded rank equals the number of players alive
immediately before the elimination (the eliminated player included), and the
finalisation half runs only on the host client: if the dying client is the
host then a single survivor receives the winning-rank write and the round is
finalised, zero survivors finalise the round with no winner write, and in
every other case (non-host client, or two or more survivors) the death
update is the only write. -/
theorem playerDied_rank_and_finish (st : TetrisState)
    (hself : ∃ p ∈ st.players, p.id = st.playerId ∧ p.alive = true) :
    (TWrite.deathUpdate st.playerId (alivePlayers st.players).length ∈ (playerDied st).2
      ∧ 1 ≤ (alivePlayers st.players).length) ∧
    (∀ w, st.isHost = true → alivePlayers (applyDeath st) = [w] →
      TWrite.winnerUpdate w.id ∈ (playerDied st).2 ∧
        ∃ r, TWrite.finishUpdate r ∈ (playerDied st).2) ∧
    (st.isHost = true → alivePlayers (applyDeath st) = [] →
      (∃ r, TWrite.finishUpdate r ∈ (playerDied st).2) ∧
        ∀ i, TWrite.winnerUpdate i ∉ (playerDied st).2) ∧
    ((st.isHost = false ∨ 2 ≤ (alivePlayers (applyDeath st)).length) →
      (playerDied st).2 = [TWrite.deathUpdate st.playerId (alivePlayers st.players).length]) := by
  obtain ⟨p, hp, hpid, halive⟩ := hself
  have hpos : 1 ≤ (alivePlayers st.players).length := by
    have : p ∈ alivePlayers st.players := List.mem_filter.mpr ⟨hp, by simpa using halive⟩
    exact List.length_pos.mpr (List.ne_nil_of_mem this)
  refine ⟨⟨?_, hpos⟩, ?_, ?_, ?_⟩
  · by_cases hcond : (alivePlayers (applyDeath st)).length ≤ 1 ∧ st.isHost = true
    · cases hlist : alivePlayers (applyDeath st) with
      | nil => rw [playerDied_writes_zero hcond.2 hlist]; simp
      | cons w t =>
        cases t with
        | nil => rw [playerDied_writes_one hcond.2 hlist]; simp
        | cons w2 t2 =>
          rw [hlist] at hcond
          simp at hcond
    · rw [playerDied_writes_skip hcond]; simp
  · intro w hhost hone
    rw [playerDied_writes_one hhost hone]
    exact ⟨by simp,
      ⟨_, List.mem_cons_of_mem _ (List.mem_cons_of_mem _ (List.mem_cons_self _ _))⟩⟩
  · intro hhost hzero
    rw [playerDied_writes_zero hhost hzero]
    refine ⟨⟨_, List.mem_cons_of_mem _ (List.mem_cons_self _ _)⟩, ?_⟩
    intro i hi
    simp at hi
  · intro hcase
    refine playerDied_writes_skip ?_
    rcases hcase with hh | hlen
    · rintro ⟨_, hh'⟩
      rw [hh] at hh'
      cases hh'
    · rintro ⟨hle, _⟩
      omega

/-- Local state used to exercise the amended C3 theorem: the dying client
`H` is the host and `B` would be the single survivor. -/
def stH : TetrisState := ⟨[⟨"H", true, 0⟩, ⟨"B", true, 0⟩], "H", true⟩

theorem playerDied_rank_and_finish_witness :
    (∃ p ∈ stH.players, p.id = stH.playerId ∧ p.alive = true) ∧
      (TWrite.deathUpdate stH.playerId (alivePlayers stH.players).length ∈ (playerDied stH).2
        ∧ 1 ≤ (alivePlayers stH.players).length) :=
  ⟨⟨⟨"H", true, 0⟩, by decide, by decide, by decide⟩,
    (playerDied_rank_and_finish stH ⟨⟨"H", true, 0⟩, by decide, by decide, by decide⟩).1⟩

/-- Local state for the C4 counterexample: players `A` and `B` alive, `C`
already eliminated; the local, dying client `B` is not the host. -/
def stB : TetrisState := ⟨[⟨"A", true, 0⟩, ⟨"B", true, 0⟩, ⟨"C", false, 3⟩], "B", false⟩

/-- C4 counterexample: the non-host client `B` of `stB` locally processes
the elimination that leaves exactly one player alive, yet performs neither a
winner write nor a game-finished write — the win-condition write is
conditioned on a host-only guard, contradicting the claim. -/
theorem winnerWrite_not_hostless_counterexample :
    (alivePlayers (applyDeath stB)).length = 1 ∧
      (playerDied stB).2 = [TWrite.deathUpdate "B" 2] := by decide

/-- C4 amended: the win-condition check is re-derived by the client that
locally processed its own elimination, but the resulting writes are guarded
by `gameState.isHost` (js/tetris.js line 682): the game-finished write
occurs exactly when that client is the host and at most one player remains
alive, and the winner-rank write occurs exactly when that client is the host
and exactly one player remains alive. -/
theorem winnerWrite_host_guarded (st : TetrisState) :
    ((∃ r, TWrite.finishUpdate r ∈ (playerDied st).2) ↔
      st.isHost = true ∧ (alivePlayers (applyDeath st)).length ≤ 1) ∧
    ((∃ i, TWrite.winnerUpdate i ∈ (playerDied st).2) ↔
      st.isHost = true ∧ (alivePlayers (applyDeath st)).length = 1) := by
  cases hhost : st.isHost with
  | false =>
    rw [playerDied_writes_skip (by rintro ⟨_, hh⟩; rw [hhost] at hh; cases hh)]
    constructor
    · constructor
      · rintro ⟨r, hr⟩
        simp at hr
      · rintro ⟨hh, _⟩
        cases hh
    · constructor
      · rintro ⟨i, hi⟩
        simp at hi
      · rintro ⟨hh, _⟩
        cases hh
  | true =>
    cases hlist : alivePlayers (applyDeath st) with
    | nil =>
      rw [playerDied_writes_zero hhost hlist]
      constructor
      · constructor
        · intro _
          exact ⟨rfl, by simp⟩
        · intro _
          exact ⟨_, List.mem_cons_of_mem _ (List.mem_cons_self _ _)⟩
      · constructor
        · rintro ⟨i, hi⟩
          simp at hi
        · rintro ⟨_, hl⟩
          simp at hl
    | cons w t =>
      cases t with
      | nil =>
        rw [playerDied_writes_one hhost hlist]
        constructor
        · constructor
          · intro _
            exact ⟨rfl, by simp⟩
          · intro _
            exact ⟨_, List.mem_cons_of_mem _ (List.mem_cons_of_mem _ (List.mem_cons_self _ _))⟩
        · constructor
          · intro _
            exact ⟨rfl, by simp⟩
          · intro _
            exact ⟨w.id, List.mem_cons_of_mem _ (List.mem_cons_self _ _)⟩
      | cons w2 t2 =>
        rw [playerDied_writes_skip (by rw [hlist]; rintro ⟨hle, _⟩; simp at hle)]
        constructor
        · constructor
          · rintro ⟨r, hr⟩
            simp at hr
          · rintro ⟨_, hl⟩
            simp at hl
        · constructor
          · rintro ⟨i, hi⟩
            simp at hi
          · rintro ⟨_, hl⟩
            simp at hl

/-! ### One-way alive flag under replication (C5)

The events that touch any `alive` flag inside a running tetris round are:
`playerDied` on the owning client (local entry and server write, both to
`false`, js/tetris.js 663-674); the game-listener merge on every other
client, which copies the server value into an existing mirror entry
(js/tetris.js 195-209, skipping the client's own player); and the room
listener creating a missing entry as `alive: true` (js/tetris.js 162-178).
`initGameState` also writes `alive: true`, but C1 shows it fires only while
the game subtree is absent, i.e. never within a round; the winner-rank,
score, board and garbage writes do not touch `alive`.  Client `c` owns
player `c`. -/

/-- Alive flags of one round across the store and every client's mirrors. -/
structure SyncState where
  /-- `alive` per player id under `game/players` in the store. -/
  server : Nat → Bool
  /-- `gameState.players[p].alive` on client `c`; `none` while client `c`
  has no entry for player `p`. -/
  locals : Nat → Nat → Option Bool

/-- One in-round event of the replicated system: a local death
(`playerDied`), a game-snapshot merge on one client, or the room listener
creating a missing player entry. -/
inductive SyncStep : SyncState → SyncState → Prop
  | die (s : SyncState) (c : Nat) :
      SyncStep s
        ⟨fun p => if p = c then false else s.server p,
          fun c' p => if c' = c ∧ p = c then some false else s.locals c' p⟩
  | sync (s : SyncState) (c : Nat) :
      SyncStep s
        ⟨s.server,
          fun c' p =>
            if c' = c ∧ p ≠ c ∧ (s.locals c p).isSome then some (s.server p)
            else s.locals c' p⟩
  | join (s : SyncState) (c p : Nat) :
      s.locals c p = none →
      SyncStep s
        ⟨s.server,
          fun c' p' => if c' = c ∧ p' = p then some true else s.locals c' p'⟩

/-- Every mirror entry that shows a player dead is backed by the store:
this holds at round start (all entries `alive: true`) and is preserved by
every event. -/
def MirrorsDead (s : SyncState) : Prop :=
  ∀ c p, s.locals c p = some false → s.server p = false

lemma syncStep_preserves {s s' : SyncState} (hInv : MirrorsDead s) (h : SyncStep s s') :
    MirrorsDead s' ∧ (∀ p, s.server p = false → s'.server p = false) ∧
      (∀ c p, s.locals c p = some false → s'.locals c p = some false) := by
  cases h with
  | die c =>
    refine ⟨?_, ?_, ?_⟩
    · intro c' p hl
      dsimp only at hl ⊢
      by_cases hc : c' = c ∧ p = c
      · simp [hc.2]
      · rw [if_neg hc] at hl
        have hs := hInv c' p hl
        by_cases hp : p = c <;> simp [hp, hs]
    · intro p hp
      dsimp only
      by_cases hpc : p = c <;> simp [hpc, hp]
    · intro c' p hl
      dsimp only
      by_cases hc : c' = c ∧ p = c <;> simp [hc, hl]
  | sync c =>
    refine ⟨?_, fun p hp => hp, ?_⟩
    · intro c' p hl
      dsimp only at hl ⊢
      by_cases hc : c' = c ∧ p ≠ c ∧ (s.locals c p).isSome
      · rw [if_pos hc] at hl
        exact Option.some_injective _ hl
      · rw [if_neg hc] at hl
        exact hInv c' p hl
    · intro c' p hl
      dsimp only
      by_cases hc : c' = c ∧ p ≠ c ∧ (s.locals c p).isSome
      · rw [if_pos hc, hInv c p (hc.1 ▸ hl)]
      · rw [if_neg hc]
        exact hl
  | join c p hnone =>
    refine ⟨?_, fun p hp => hp, ?_⟩
    · intro c' p' hl
      dsimp only at hl ⊢
      by_cases hc : c' = c ∧ p' = p
      · rw [if_pos hc] at hl
        simp at hl
      · rw [if_neg hc] at hl
        exact hInv c' p' hl
    · intro c' p' hl
      dsimp only
      by_cases hc : c' = c ∧ p' = p
      · rw [hc.1, hc.2, hnone] at hl
        cases hl
      · rw [if_neg hc]
        exact hl

/-- C5: within a round (starting from any state whose dead mirror entries
are backed by the store — true at round start, where everything is alive),
`alive = false` is a one-way transition: along any sequence of in-round
events, a player marked dead in the store stays dead, and a client's mirror
entry showing a player dead never reverts to alive. -/
theorem alive_one_way (s s' : SyncState) (hInv : MirrorsDead s)
    (h : Relation.ReflTransGen SyncStep s s') :
    (∀ p, s.server p = false → s'.server p = false) ∧
    (∀ c p, s.locals c p = some false → s'.locals c p = some false) := by
  have main : MirrorsDead s' ∧ (∀ p, s.server p = false → s'.server p = false) ∧
      (∀ c p, s.locals c p = some false → s'.locals c p = some false) := by
    induction h with
    | refl => exact ⟨hInv, fun _ hp => hp, fun _ _ hl => hl⟩
    | tail hst hstep ih =>
      obtain ⟨ih1, ih2, ih3⟩ := ih
      obtain ⟨j1, j2, j3⟩ := syncStep_preserves ih1 hstep
      exact ⟨j1, fun p hp => j2 p (ih2 p hp), fun c p hl => j3 c p (ih3 c p hl)⟩
  exact ⟨main.2.1, main.2.2⟩

/-- Round-start state: every player alive on the store, every client's
mirror fully populated with alive entries. -/
def syncStart : SyncState := ⟨fun _ => true, fun _ _ => some true⟩

/-- `syncStart` after client 0 processes its own death. -/
def syncAfterDie : SyncState :=
  ⟨fun p => if p = 0 then false else syncStart.server p,
    fun c' p => if c' = 0 ∧ p = 0 then some false else syncStart.locals c' p⟩

theorem alive_one_way_witness :
    MirrorsDead syncStart ∧
      ((∀ p, syncStart.server p = false → syncAfterDie.server p = false) ∧
        (∀ c p, syncStart.locals c p = some false → syncAfterDie.locals c p = some false)) :=
  ⟨fun c p hl => by simp [syncStart] at hl,
    alive_one_way syncStart syncAfterDie (fun c p hl => by simp [syncStart] at hl)
      (Relation.ReflTransGen.single (SyncStep.die syncStart 0))⟩

/-! ### Re-entry detection after reload (C7) — modelled from the spec

No source file of the repository reads the persisted `game_in_progress`
flag: the omok clients only set it at startup (js/omok.js 104,
unnamed/part_001 105) and clear it on exit, and the arena game page that
performs the startup check is absent from the repository.  The startup
behaviour is therefore modelled from §7(d,e) of the specification. -/

/-- Modelled from the spec: what the (absent) arena game page sees on
startup — the persisted client-local "round in progress" flag and the
currently visible players with their alive flags (the client included). -/
structure ArenaStartup where
  flagSet : Bool
  players : List (Nat × Bool)
  selfId : Nat

/-- Outcome of the startup check: rejoin the round mid-play, or treat the
client as already defeated with the given rank. -/
inductive StartupOutcome where
  | rejoin
  | autoEliminated (rank : Nat)
deriving DecidableEq

/-- Modelled from the spec (§7(d,e)): the arena game page's startup check,
absent from src/.  If the persisted flag is set the client treats itself as
already defeated — an auto-elimination whose rank is the count of
still-alive players in the currently visible set, itself included — rather
than rejoining the round mid-play; otherwise it proceeds normally. -/
def arenaStartup (s : ArenaStartup) : StartupOutcome :=
  if s.flagSet then
    StartupOutcome.autoEliminated (s.players.filter fun q => q.2).length
  else
    StartupOutcome.rejoin

/-- C7: on game-page startup with the persisted "round in progress" flag
set, the client auto-eliminates itself with rank equal to the number of
currently visible alive players, and does not rejoin the round. -/
theorem reload_auto_eliminates (s : ArenaStartup) (h : s.flagSet = true) :
    arenaStartup s = StartupOutcome.autoEliminated (s.players.filter fun q => q.2).length ∧
      arenaStartup s ≠ StartupOutcome.rejoin := by
  refine ⟨by simp [arenaStartup, h], by simp [arenaStartup, h]⟩

/-- Startup snapshot used to exercise the reload theorem: flag set, two of
three visible players alive. -/
def reloadW : ArenaStartup := ⟨true, [(0, true), (1, true), (2, false)], 0⟩

theorem reload_auto_eliminates_witness :
    reloadW.flagSet = true ∧
      (arenaStartup reloadW
          = StartupOutcome.autoEliminated (reloadW.players.filter fun q => q.2).length ∧
        arenaStartup reloadW ≠ StartupOutcome.rejoin) :=
  ⟨rfl, reload_auto_eliminates reloadW rfl⟩

/-! ### BombSystem / ExplosionEngine (C8, C9) — modelled from the spec

The Crazy-Arcade simulation engine is not part of the repository (the
bundled README lists it as a planned phase; only the lobby/room scaffolding
and the two other games are present in src/), so bomb placement, detonation
and the explosion rays are modelled from §4.3 and §7(b) of the
specification. -/

/-- A map tile kind.  Bomb occupancy lives in the bomb set and explosion
overlays are transient artifacts (§3), so neither is a tile kind here. -/
inductive Tile where
  | empty
  | solidWall
  | breakableWall
deriving DecidableEq

/-- Modelled from the spec (§3): the player fields the bomb system reads
and writes. -/
structure BPlayer where
  id : Nat
  alive : Bool
  trapped : Bool
  activeBombs : Nat
  maxBombs : Nat
  tile : Int × Int
  power : Nat
deriving DecidableEq

/-- Modelled from the spec (§3): a placed bomb, its blast power captured at
placement time. -/
structure Bomb where
  id : Nat
  tile : Int × Int
  owner : Nat
  power : Nat
deriving DecidableEq

/-- Modelled from the spec: the in-round simulation state of the bomb
system (13×11 reference grid; timers are events, not state). -/
structure BombState where
  width : Int
  height : Int
  tiles : Int × Int → Tile
  players : List BPlayer
  bombs : List Bomb
  nextBombId : Nat

/-- Tile lookup; out-of-bounds queries are blocking (§7(b)), reported as
`none`. -/
def tileAt (st : BombState) (t : Int × Int) : Option Tile :=
  if 0 ≤ t.1 ∧ t.1 < st.width ∧ 0 ≤ t.2 ∧ t.2 < st.height then some (st.tiles t)
  else none

/-- A live bomb occupies the tile. -/
def bombAt (st : BombState) (t : Int × Int) : Bool :=
  st.bombs.any fun b => decide (b.tile = t)

/-- Look up a player by id. -/
def findPlayer (st : BombState) (pid : Nat) : Option BPlayer :=
  st.players.find? fun q => q.id == pid

/-- The active-bomb counter of a player. -/
def activeOf (st : BombState) (pid : Nat) : Nat :=
  match findPlayer st pid with
  | some q => q.activeBombs
  | none => 0

/-- Increment the placing player's active-bomb counter. -/
def incActive (pid : Nat) (q : BPlayer) : BPlayer :=
  if q.id == pid then { q with activeBombs := q.activeBombs + 1 } else q

/-- Decrement the detonated bomb owner's active-bomb counter. -/
def decActive (owner : Nat) (q : BPlayer) : BPlayer :=
  if q.id == owner then { q with activeBombs := q.activeBombs - 1 } else q

/-- Transition an alive, untrapped player standing in the blast to
Trapped (§4.3 step 5, §4.4). -/
def trapIfHit (blast : List (Int × Int)) (q : BPlayer) : BPlayer :=
  if q.alive = true ∧ q.trapped = false ∧ q.tile ∈ blast then
    { q with trapped := true }
  else q

/-- Modelled from the spec (§4.3 placement contract): a silent no-op if the
player is dead or trapped, has `activeBombs ≥ maxBombs`, or stands on a
tile that already holds a bomb; otherwise a bomb snapshot with the player's
current blast power is created on the player's tile, marking it occupied,
and the player's active-bomb counter is incremented. -/
def placeBomb (st : BombState) (pid : Nat) : BombState :=
  match findPlayer st pid with
  | none => st
  | some p =>
    if p.alive = false ∨ p.trapped = true ∨ p.maxBombs ≤ p.activeBombs ∨
        bombAt st p.tile = true then st
    else
      { st with
        bombs := st.bombs ++ [⟨st.nextBombId, p.tile, pid, p.power⟩],
        players := st.players.map (incActive pid),
        nextBombId := st.nextBombId + 1 }

/-- Modelled from the spec (§4.3 step 3): one explosion ray, walking
outward up to `power` tiles; stop without including the tile on SolidWall
or out of bounds; include the tile and stop on BreakableWall or on a tile
holding another live bomb; otherwise include the tile and continue. -/
def rayTiles (st : BombState) (pos dir : Int × Int) : Nat → List (Int × Int)
  | 0 => []
  | n + 1 =>
    match tileAt st (pos.1 + dir.1, pos.2 + dir.2) with
    | none => []
    | some Tile.solidWall => []
    | some Tile.breakableWall => [(pos.1 + dir.1, pos.2 + dir.2)]
    | some Tile.empty =>
      if bombAt st (pos.1 + dir.1, pos.2 + dir.2) then [(pos.1 + dir.1, pos.2 + dir.2)]
      else (pos.1 + dir.1, pos.2 + dir.2) :: rayTiles st (pos.1 + dir.1, pos.2 + dir.2) dir n

/-- Modelled from the spec (§4.3 steps 2-3): the bomb's own tile plus the
four axis rays (left, right, up, down), computed against the state with the
detonating bomb already removed (step 1 precedes step 3). -/
def explosionTiles (st : BombState) (b : Bomb) : List (Int × Int) :=
  b.tile ::
    (rayTiles st b.tile (-1, 0) b.power ++ rayTiles st b.tile (1, 0) b.power ++
      rayTiles st b.tile (0, -1) b.power ++ rayTiles st b.tile (0, 1) b.power)

/-- Modelled from the spec (§4.3 detonation, §5): a no-op on a bomb id that
is no longer live — the guard that makes redundant triggers (stale timers,
chain reactions) safe.  Otherwise: remove the bomb, decrement its owner's
active-bomb counter, convert the breakable walls in the blast to empty, and
trap every alive, untrapped player standing on a blast tile.
Chain-triggered bombs detonate through their own scheduled events, so one
invocation computes one bomb's blast.  (Item spawning and the explosion
overlay's timed expiry are not modelled.) -/
def detonateBomb (st : BombState) (bid : Nat) : BombState :=
  match st.bombs.find? (fun b => b.id == bid) with
  | none => st
  | some b =>
    let st1 : BombState :=
      { st with
        bombs := st.bombs.filter fun b' => decide (b'.id ≠ bid),
        players := st.players.map (decActive b.owner) }
    let blast := explosionTiles st1 b
    { st1 with
      tiles := fun t =>
        if t ∈ blast ∧ st1.tiles t = Tile.breakableWall then Tile.empty
        else st1.tiles t,
      players := st1.players.map (trapIfHit blast) }

lemma incActive_id (pid : Nat) (q : BPlayer) : (incActive pid q).id = q.id := by
  unfold incActive
  split <;> rfl

lemma decActive_id (owner : Nat) (q : BPlayer) : (decActive owner q).id = q.id := by
  unfold decActive
  split <;> rfl

lemma trapIfHit_id (blast : List (Int × Int)) (q : BPlayer) :
    (trapIfHit blast q).id = q.id := by
  unfold trapIfHit
  split <;> rfl

lemma trapIfHit_activeBombs (blast : List (Int × Int)) (q : BPlayer) :
    (trapIfHit blast q).activeBombs = q.activeBombs := by
  unfold trapIfHit
  split <;> rfl

/-- `find?` by id commutes with an id-preserving map. -/
lemma find?_map_presId (pid : Nat) (f : BPlayer → BPlayer)
    (hf : ∀ q, (f q).id = q.id) :
    ∀ l : List BPlayer,
      (l.map f).find? (fun q => q.id == pid) = (l.find? (fun q => q.id == pid)).map f := by
  intro l
  induction l with
  | nil => rfl
  | cons q t ih =>
    rw [List.map_cons, List.find?_cons, List.find?_cons, hf q]
    by_cases hq : (q.id == pid) = true
    · rw [hq]
      rfl
    · rw [Bool.eq_false_iff.mpr hq]
      exact ih

/-- Detonating a bomb id that is not live is a no-op (§5). -/
lemma detonateBomb_not_found {st : BombState} {bid : Nat}
    (h : st.bombs.find? (fun b => b.id == bid) = none) :
    detonateBomb st bid = st := by
  unfold detonateBomb
  rw [h]

/-- C8: bomb placement is a silent no-op whenever the acting player is dead
or trapped, is at its bomb capacity, or stands on an occupied tile; a
successful placement occupies the player's tile and increments the owner's
counter by exactly one; detonating a live bomb removes it, frees its tile
and decrements the owner's counter by one; and a second detonation of the
same bomb id is a no-op (no duplicate explosion, no second decrement). -/
theorem bomb_place_detonate_contract (st : BombState) (pid : Nat) (p : BPlayer)
    (bid : Nat) (b : Bomb) (q : BPlayer)
    (hp : findPlayer st pid = some p)
    (hb : st.bombs.find? (fun b' => b'.id == bid) = some b)
    (hq : findPlayer st b.owner = some q)
    (htiles : ∀ b' ∈ st.bombs, b'.tile = b.tile → b'.id = bid) :
    ((p.alive = false ∨ p.trapped = true ∨ p.maxBombs ≤ p.activeBombs ∨
        bombAt st p.tile = true) → placeBomb st pid = st) ∧
    (p.alive = true → p.trapped = false → p.activeBombs < p.maxBombs →
      bombAt st p.tile = false →
      bombAt (placeBomb st pid) p.tile = true ∧
        activeOf (placeBomb st pid) pid = p.activeBombs + 1) ∧
    ((detonateBomb st bid).bombs.find? (fun b' => b'.id == bid) = none ∧
      bombAt (detonateBomb st bid) b.tile = false ∧
      activeOf (detonateBomb st bid) b.owner = q.activeBombs - 1) ∧
    detonateBomb (detonateBomb st bid) bid = detonateBomb st bid := by
  have hput : ∀ l : List Bomb, (l.filter fun b' => decide (b'.id ≠ bid)).find?
      (fun b' => b'.id == bid) = none := by
    intro l
    rw [List.find?_eq_none]
    intro x hx
    have hne := (List.mem_filter.mp hx).2
    simp only [decide_eq_true_eq] at hne
    simp [hne]
  have hbombs : (detonateBomb st bid).bombs
      = st.bombs.filter fun b' => decide (b'.id ≠ bid) := by
    unfold detonateBomb
    rw [hb]
  have hpid : (p.id == pid) = true := by
    have h := List.find?_some hp
    exact h
  have hqid : (q.id == b.owner) = true := by
    have h := List.find?_some hq
    exact h
  refine ⟨?_, ?_, ⟨?_, ?_, ?_⟩, ?_⟩
  · intro hrej
    unfold placeBomb
    rw [hp]
    dsimp only
    rw [if_pos hrej]
  · intro halive htrap hcap hocc
    have hacc : ¬(p.alive = false ∨ p.trapped = true ∨ p.maxBombs ≤ p.activeBombs ∨
        bombAt st p.tile = true) := by
      rw [halive, htrap, hocc]
      push_neg
      refine ⟨by simp, by simp, by omega, by simp⟩
    constructor
    · unfold placeBomb
      rw [hp]
      dsimp only
      rw [if_neg hacc]
      simp [bombAt]
    · have hp' : List.find? (fun q' => q'.id == pid) st.players = some p := hp
      unfold placeBomb activeOf findPlayer
      rw [hp']
      dsimp only
      rw [if_neg hacc]
      dsimp only
      rw [find?_map_presId pid (incActive pid) (incActive_id pid) st.players, hp',
        Option.map_some']
      simp [incActive, hpid]
  · rw [hbombs]
    exact hput st.bombs
  · rw [show bombAt (detonateBomb st bid) b.tile
        = (detonateBomb st bid).bombs.any (fun b' => decide (b'.tile = b.tile)) from rfl,
      hbombs, List.any_eq_false]
    intro x hx
    obtain ⟨hxm, hxne⟩ := List.mem_filter.mp hx
    simp only [decide_eq_true_eq] at hxne ⊢
    intro hxt
    exact hxne (htiles x hxm hxt)
  · have hpl : (detonateBomb st bid).players
        = (st.players.map (decActive b.owner)).map
            (trapIfHit (explosionTiles
              { st with
                bombs := st.bombs.filter fun b' => decide (b'.id ≠ bid),
                players := st.players.map (decActive b.owner) } b)) := by
      unfold detonateBomb
      rw [hb]
    unfold activeOf findPlayer
    rw [hpl,
      find?_map_presId b.owner (trapIfHit _) (trapIfHit_id _),
      find?_map_presId b.owner (decActive b.owner) (decActive_id b.owner),
      show List.find? (fun q' => q'.id == b.owner) st.players = some q from hq,
      Option.map_some', Option.map_some']
    dsimp only
    rw [trapIfHit_activeBombs]
    simp [decActive, hqid]
  · refine detonateBomb_not_found ?_
    rw [hbombs]
    exact hput st.bombs

/-- Concrete state used to exercise the bomb contract: one player on tile
`(1,1)` with capacity 1 and no active bomb, one live bomb with id 5 on tile
`(2,2)`. -/
def stBomb : BombState :=
  ⟨13, 11, fun _ => Tile.empty,
    [⟨0, true, false, 0, 1, (1, 1), 2⟩],
    [⟨5, (2, 2), 0, 2⟩], 6⟩

theorem bomb_place_detonate_contract_witness :
    (findPlayer stBomb 0 = some ⟨0, true, false, 0, 1, (1, 1), 2⟩ ∧
      stBomb.bombs.find? (fun b' => b'.id == 5) = some ⟨5, (2, 2), 0, 2⟩ ∧
      ∀ b' ∈ stBomb.bombs, b'.tile = (2, 2) → b'.id = 5) ∧
    detonateBomb (detonateBomb stBomb 5) 5 = detonateBomb stBomb 5 :=
  ⟨⟨by decide, by decide, by decide⟩,
    (bomb_place_detonate_contract stBomb 0 ⟨0, true, false, 0, 1, (1, 1), 2⟩ 5
      ⟨5, (2, 2), 0, 2⟩ ⟨0, true, false, 0, 1, (1, 1), 2⟩
      (by decide) (by decide) (by decide) (by decide)).2.2.2⟩

/-! ### Explosion ray geometry (C9) -/

/-- The straight line of tiles starting adjacent to `pos` in direction
`dir`, `n` tiles long. -/
def lineTiles (pos dir : Int × Int) : Nat → List (Int × Int)
  | 0 => []
  | n + 1 =>
    (pos.1 + dir.1, pos.2 + dir.2) ::
      lineTiles (pos.1 + dir.1, pos.2 + dir.2) dir n

lemma lineTiles_succ (pos dir : Int × Int) (n : Nat) :
    lineTiles pos dir (n + 1)
      = (pos.1 + dir.1, pos.2 + dir.2) ::
          lineTiles (pos.1 + dir.1, pos.2 + dir.2) dir n := rfl

lemma rayTiles_succ (st : BombState) (pos dir : Int × Int) (n : Nat) :
    rayTiles st pos dir (n + 1) =
      match tileAt st (pos.1 + dir.1, pos.2 + dir.2) with
      | none => []
      | some Tile.solidWall => []
      | some Tile.breakableWall => [(pos.1 + dir.1, pos.2 + dir.2)]
      | some Tile.empty =>
        if bombAt st (pos.1 + dir.1, pos.2 + dir.2) then [(pos.1 + dir.1, pos.2 + dir.2)]
        else (pos.1 + dir.1, pos.2 + dir.2) :: rayTiles st (pos.1 + dir.1, pos.2 + dir.2) dir n :=
  rfl

/-- The 13×11 reference arena with no walls, no players and no bombs:
"no obstruction within range". -/
def openArena : BombState := ⟨13, 11, fun _ => Tile.empty, [], [], 0⟩

/-- C9: along each direction the affected tiles are a prefix of the
straight line starting adjacent to the bomb, of length at most the captured
power; every tile of the prefix but possibly the last is free (empty, no
bomb); a truncated ray either ends on a BreakableWall or live bomb
(included) or is cut before a SolidWall / out-of-bounds tile (excluded);
and with power 2 and no obstruction the full explosion set of a bomb at
(5,5) is exactly the nine listed tiles. -/
theorem explosion_ray_shape (st : BombState) (dir : Int × Int) :
    (∀ (n : Nat) (pos : Int × Int),
      (rayTiles st pos dir n <+: lineTiles pos dir n) ∧
      (rayTiles st pos dir n).length ≤ n ∧
      (∀ t ∈ (rayTiles st pos dir n).dropLast,
        tileAt st t = some Tile.empty ∧ bombAt st t = false) ∧
      ((rayTiles st pos dir n).length < n →
        (∃ tl, (rayTiles st pos dir n).getLast? = some tl ∧
          (tileAt st tl = some Tile.breakableWall ∨ bombAt st tl = true)) ∨
        (∃ tn, (lineTiles pos dir n)[(rayTiles st pos dir n).length]? = some tn ∧
          (tileAt st tn = none ∨ tileAt st tn = some Tile.solidWall)))) ∧
    explosionTiles openArena ⟨0, (5, 5), 0, 2⟩ =
      [(5, 5), (4, 5), (3, 5), (6, 5), (7, 5), (5, 4), (5, 3), (5, 6), (5, 7)] := by
  constructor
  · intro n
    induction n with
    | zero =>
      intro pos
      exact ⟨List.nil_prefix, Nat.le_refl 0, by simp [rayTiles], by omega⟩
    | succ n ih =>
      intro pos
      cases htile : tileAt st (pos.1 + dir.1, pos.2 + dir.2) with
      | none =>
        have hray : rayTiles st pos dir (n + 1) = [] := by
          rw [rayTiles_succ, htile]
        rw [hray]
        refine ⟨List.nil_prefix, by simp, by simp, fun _ => Or.inr ?_⟩
        exact ⟨(pos.1 + dir.1, pos.2 + dir.2), by simp [lineTiles_succ], Or.inl htile⟩
      | some tk =>
        cases tk with
        | solidWall =>
          have hray : rayTiles st pos dir (n + 1) = [] := by
            rw [rayTiles_succ, htile]
          rw [hray]
          refine ⟨List.nil_prefix, by simp, by simp, fun _ => Or.inr ?_⟩
          exact ⟨(pos.1 + dir.1, pos.2 + dir.2), by simp [lineTiles_succ], Or.inr htile⟩
        | breakableWall =>
          have hray : rayTiles st pos dir (n + 1) = [(pos.1 + dir.1, pos.2 + dir.2)] := by
            rw [rayTiles_succ, htile]
          rw [hray, lineTiles_succ]
          refine ⟨List.cons_prefix_cons.mpr ⟨rfl, List.nil_prefix⟩, by simp, by simp,
            fun _ => Or.inl ⟨(pos.1 + dir.1, pos.2 + dir.2), by simp, Or.inl htile⟩⟩
        | empty =>
          by_cases hbomb : bombAt st (pos.1 + dir.1, pos.2 + dir.2) = true
          · have hray : rayTiles st pos dir (n + 1) = [(pos.1 + dir.1, pos.2 + dir.2)] := by
              unfold rayTiles
              rw [htile, if_pos hbomb]
            rw [hray, lineTiles_succ]
            refine ⟨List.cons_prefix_cons.mpr ⟨rfl, List.nil_prefix⟩, by simp, by simp,
              fun _ => Or.inl ⟨(pos.1 + dir.1, pos.2 + dir.2), by simp, Or.inr hbomb⟩⟩
          · have hbf : bombAt st (pos.1 + dir.1, pos.2 + dir.2) = false :=
              Bool.eq_false_iff.mpr hbomb
            have hray : rayTiles st pos dir (n + 1)
                = (pos.1 + dir.1, pos.2 + dir.2)
                    :: rayTiles st (pos.1 + dir.1, pos.2 + dir.2) dir n := by
              rw [rayTiles_succ, htile]
              dsimp only
              rw [if_neg hbomb]
            obtain ⟨ihA, ihB, ihC, ihD⟩ := ih (pos.1 + dir.1, pos.2 + dir.2)
            refine ⟨?_, ?_, ?_, ?_⟩
            · rw [hray, lineTiles_succ]
              exact List.cons_prefix_cons.mpr ⟨rfl, ihA⟩
            · rw [hray]
              simpa using ihB
            · rw [hray]
              intro u hu
              cases hr : rayTiles st (pos.1 + dir.1, pos.2 + dir.2) dir n with
              | nil =>
                rw [hr] at hu
                simp at hu
              | cons a rest =>
                rw [hr, List.dropLast_cons₂] at hu
                rcases List.mem_cons.mp hu with rfl | hu'
                · exact ⟨htile, hbf⟩
                · have := ihC u
                  rw [hr] at this
                  exact this hu'
            · intro hlen
              rw [hray] at hlen
              have hlen' : (rayTiles st (pos.1 + dir.1, pos.2 + dir.2) dir n).length < n := by
                simpa using hlen
              rcases ihD hlen' with ⟨tl, hl, hcond⟩ | ⟨tn, hn, hcond⟩
              · left
                refine ⟨tl, ?_, hcond⟩
                rw [hray]
                cases hr : rayTiles st (pos.1 + dir.1, pos.2 + dir.2) dir n with
                | nil =>
                  rw [hr] at hl
                  cases hl
                | cons a rest =>
                  rw [hr] at hl
                  rw [List.getLast?_cons_cons]
                  exact hl
              · right
                refine ⟨tn, ?_, hcond⟩
                rw [hray, lineTiles_succ]
                simp only [List.length_cons, List.getElem?_cons_succ]
                exact hn
  · decide

theorem explosion_ray_shape_witness :
    rayTiles openArena (5, 5) (1, 0) 2 <+: lineTiles (5, 5) (1, 0) 2 ∧
      (rayTiles openArena (5, 5) (1, 0) 2).length ≤ 2 :=
  ⟨((explosion_ray_shape openArena (1, 0)).1 2 (5, 5)).1,
    ((explosion_ray_shape openArena (1, 0)).1 2 (5, 5)).2.1⟩

end GameBox
